import Mathlib

/-!
Verification of the ABX exchange client (src/client.cpp) against its
natural-language specification.

The development shallowly embeds the program's core: the frame decoder
(`parse_packet`), the stream reassembler (`drainBuffer` / `feedChunks`),
the record store (a sorted association list with `storeInsert`, mirroring
`std::map<int32_t, Packet>`), the gap analyzer (`maxSequence` /
`missingSequences`), the recovery session (`runRecoverySession`) and the
output formatter's symbol trimming (`trimSymbol`). Bytes are modelled as
`Nat` values below 256; 32-bit signed integers as `Int` with explicit
two's-complement reduction (`toInt32`).
-/

namespace AbxClient

/-- Two's-complement reading of a natural number as a signed 32-bit value:
the embedding of what C++ produces when shift-and-or of byte values lands in
an `int32_t`. -/
def toInt32 (n : Nat) : Int :=
  if n % 2 ^ 32 < 2 ^ 31 then ((n % 2 ^ 32 : Nat) : Int)
  else ((n % 2 ^ 32 : Nat) : Int) - 2 ^ 32

/-- The `Packet` struct of src/client.cpp lines 21-36: symbol (4 raw bytes),
buy/sell indicator byte, and three 32-bit signed integers. -/
structure Packet where
  symbol : List Nat
  buysell_indicator : Nat
  quantity : Int
  price : Int
  sequence : Int
deriving DecidableEq

/-- src/client.cpp line 39: each record occupies exactly 17 bytes. -/
def PACKET_SIZE : Nat := 17

/-- The frame decoder, src/client.cpp lines 48-81 (`parse_packet`):
slices the 17-byte window at `offset` into the fixed fields, decoding the
three 32-bit integers by shifting each byte into place and or-ing
(big-endian, independent of platform byte order). No validation is
performed; the function is total. -/
def parse_packet (raw_data : List Nat) (offset : Nat) : Packet :=
  let data := raw_data.drop offset
  { symbol := data.take 4
    buysell_indicator := data.getD 4 0
    quantity := toInt32 ((data.getD 5 0 <<< 24) ||| (data.getD 6 0 <<< 16) |||
      (data.getD 7 0 <<< 8) ||| data.getD 8 0)
    price := toInt32 ((data.getD 9 0 <<< 24) ||| (data.getD 10 0 <<< 16) |||
      (data.getD 11 0 <<< 8) ||| data.getD 12 0)
    sequence := toInt32 ((data.getD 13 0 <<< 24) ||| (data.getD 14 0 <<< 16) |||
      (data.getD 15 0 <<< 8) ||| data.getD 16 0) }

/-- Specification-side meaning of a 32-bit signed big-endian field made of the
four bytes `b0 b1 b2 b3` (most significant first): the unique integer in
`[-2^31, 2^31)` congruent to `b0*2^24 + b1*2^16 + b2*2^8 + b3` modulo
`2^32`. Used only to compare the decoder against the spec's wire layout. -/
def int32BE (b0 b1 b2 b3 : Nat) : Int :=
  let n : Nat := b0 * 2 ^ 24 + b1 * 2 ^ 16 + b2 * 2 ^ 8 + b3
  if n < 2 ^ 31 then (n : Int) else (n : Int) - 2 ^ 32

/-- The record store: `std::map<int32_t, Packet> received_packets`
(src/client.cpp line 86), embedded as an association list kept sorted by
strictly increasing key. -/
abbrev Store := List (Int × Packet)

/-- Map insertion `received_packets[k] = v` (src/client.cpp lines 182 and
359): places the binding at its sorted position, overwriting an existing
binding for the same key. -/
def storeInsert : Store → Int → Packet → Store
  | [], k, v => [(k, v)]
  | (k1, v1) :: rest, k, v =>
    if k < k1 then (k, v) :: (k1, v1) :: rest
    else if k = k1 then (k, v) :: rest
    else (k1, v1) :: storeInsert rest k v

/-- Map lookup: the value bound to `k`, if any. -/
def storeLookup : Store → Int → Option Packet
  | [], _ => none
  | (k1, v1) :: rest, k => if k = k1 then some v1 else storeLookup rest k

/-- The store's key list, in iteration order. -/
def storeKeys (s : Store) : List Int := s.map Prod.fst

/-- `received_packets.find(i) != received_packets.end()` (src/client.cpp
line 230). -/
def storeContains (s : Store) (k : Int) : Bool := (storeLookup s k).isSome

/-- The store's values in iteration order: what the output formatter walks
(src/client.cpp line 390). -/
def outputRecords (s : Store) : List Packet := s.map Prod.snd

/-- The store invariant `std::map` maintains: keys strictly increasing in
iteration order. -/
def storeSorted (s : Store) : Prop := (storeKeys s).Pairwise (· < ·)

/-- `received_packets.rbegin()->first`, 0 for an empty map (src/client.cpp
lines 221-224): the key of the last element in iteration order. -/
def maxSequence : Store → Int
  | [] => 0
  | [(k, _)] => k
  | _ :: rest => maxSequence rest

/-- The gap analyzer, src/client.cpp lines 228-235: every `i` in
`[1, max_sequence]`, in ascending order, whose key is absent from the map. -/
def missingSequences (s : Store) : List Int :=
  (((List.range (maxSequence s).toNat).map (fun (k : Nat) => (k : Int) + 1)).filter
    (fun i => !storeContains s i))

/-- The store produced by the streaming phase: each decoded packet inserted
under its own sequence number, in arrival order (src/client.cpp line 182). -/
def streamStore (ps : List Packet) : Store :=
  ps.foldl (fun st p => storeInsert st p.sequence p) []

/-- The resend request payload, src/client.cpp line 290:
`{2, static_cast<unsigned char>(seq_to_resend)}`. The cast to
`unsigned char` reduces the 32-bit sequence modulo 256. -/
def resend_payload (seq : Int) : List Nat := [2, (seq % 256).toNat]

/-- The symbol-trimming step of the output formatter, src/client.cpp lines
405-414. The source calls `find_last_not_of(" \x5c0")` with a C string
literal: the character set is read up to the embedded NUL, so the effective
set is the single character `' '` (byte 32) — only trailing spaces are
removed, and a string of spaces only is cleared. -/
def trimSymbol (sym : List Nat) : List Nat :=
  (sym.reverse.dropWhile (fun c => c == 32)).reverse

end AbxClient

namespace AbxClient

/-! ### Record store lemmas -/

theorem storeLookup_insert_self (s : Store) (k : Int) (v : Packet) :
    storeLookup (storeInsert s k v) k = some v := by
  induction s with
  | nil => simp [storeInsert, storeLookup]
  | cons hd tl ih =>
    obtain ⟨k1, v1⟩ := hd
    by_cases h1 : k < k1
    · simp [storeInsert, storeLookup, h1]
    · by_cases h2 : k = k1
      · simp [storeInsert, storeLookup, h1, h2]
      · simp [storeInsert, storeLookup, h1, h2, ih]

theorem storeLookup_insert_ne (s : Store) (k j : Int) (v : Packet) (h : j ≠ k) :
    storeLookup (storeInsert s k v) j = storeLookup s j := by
  induction s with
  | nil => simp [storeInsert, storeLookup, h]
  | cons hd tl ih =>
    obtain ⟨k1, v1⟩ := hd
    by_cases h1 : k < k1
    · simp [storeInsert, storeLookup, h1, h]
    · by_cases h2 : k = k1
      · subst h2
        simp [storeInsert, storeLookup, h1, h]
      · by_cases h3 : j = k1
        · simp [storeInsert, storeLookup, h1, h2, h3]
        · simp [storeInsert, storeLookup, h1, h2, h3, ih]

theorem storeInsert_insert_same (s : Store) (k : Int) (v1 v2 : Packet) :
    storeInsert (storeInsert s k v1) k v2 = storeInsert s k v2 := by
  induction s with
  | nil => simp [storeInsert]
  | cons hd tl ih =>
    obtain ⟨k1, w1⟩ := hd
    by_cases h1 : k < k1
    · simp [storeInsert, h1, lt_irrefl]
    · by_cases h2 : k = k1
      · simp [storeInsert, h1, h2, lt_irrefl]
      · simp [storeInsert, h1, h2, ih]

theorem mem_outputRecords_insert (s : Store) (k : Int) (v : Packet) :
    v ∈ outputRecords (storeInsert s k v) := by
  induction s with
  | nil => simp [storeInsert, outputRecords]
  | cons hd tl ih =>
    obtain ⟨k1, v1⟩ := hd
    by_cases h1 : k < k1
    · simp [storeInsert, outputRecords, h1]
    · by_cases h2 : k = k1
      · simp [storeInsert, outputRecords, h1, h2]
      · simpa [storeInsert, outputRecords, h1, h2] using Or.inr ih

theorem storeKeys_nil : storeKeys [] = [] := rfl

theorem storeKeys_cons (k : Int) (v : Packet) (t : Store) :
    storeKeys ((k, v) :: t) = k :: storeKeys t := rfl

theorem mem_storeKeys_insert (s : Store) (k j : Int) (v : Packet)
    (h : j ∈ storeKeys (storeInsert s k v)) : j = k ∨ j ∈ storeKeys s := by
  induction s with
  | nil => simpa [storeInsert, storeKeys] using h
  | cons hd tl ih =>
    obtain ⟨k1, v1⟩ := hd
    by_cases h1 : k < k1
    · simp only [storeInsert, if_pos h1, storeKeys_cons, List.mem_cons] at h ⊢
      tauto
    · by_cases h2 : k = k1
      · simp only [storeInsert, if_neg h1, if_pos h2, storeKeys_cons, List.mem_cons] at h ⊢
        tauto
      · simp only [storeInsert, if_neg h1, if_neg h2, storeKeys_cons, List.mem_cons] at h ⊢
        rcases h with h | h
        · tauto
        · rcases ih h with h3 | h3 <;> tauto

theorem storeSorted_insert (s : Store) (k : Int) (v : Packet) (hs : storeSorted s) :
    storeSorted (storeInsert s k v) := by
  induction s with
  | nil => simp [storeInsert, storeSorted, storeKeys]
  | cons hd tl ih =>
    obtain ⟨k1, v1⟩ := hd
    rw [storeSorted, storeKeys_cons, List.pairwise_cons] at hs
    obtain ⟨hlt, htl⟩ := hs
    by_cases h1 : k < k1
    · rw [storeSorted]
      simp only [storeInsert, if_pos h1, storeKeys_cons]
      refine List.Pairwise.cons ?_ (List.Pairwise.cons hlt htl)
      intro b hb
      rcases List.mem_cons.mp hb with rfl | hb2
      · exact h1
      · exact lt_trans h1 (hlt b hb2)
    · by_cases h2 : k = k1
      · subst h2
        rw [storeSorted]
        simp only [storeInsert, if_neg h1, if_pos rfl, storeKeys_cons]
        exact List.Pairwise.cons hlt htl
      · rw [storeSorted]
        simp only [storeInsert, if_neg h1, if_neg h2, storeKeys_cons]
        refine List.Pairwise.cons ?_ (ih htl)
        intro b hb
        rcases mem_storeKeys_insert tl k b v hb with rfl | hb2
        · exact lt_of_le_of_ne (not_lt.mp h1) (Ne.symm h2)
        · exact hlt b hb2

theorem foldl_insert_sorted (ps : List Packet) (s : Store) (hs : storeSorted s) :
    storeSorted (ps.foldl (fun st p => storeInsert st p.sequence p) s) := by
  induction ps generalizing s with
  | nil => simpa using hs
  | cons p ps ih => exact ih _ (storeSorted_insert _ _ _ hs)

theorem streamStore_sorted (ps : List Packet) : storeSorted (streamStore ps) :=
  foldl_insert_sorted ps [] (by simp [storeSorted, storeKeys])

theorem maxSequence_mem (s : Store) (h : s ≠ []) : maxSequence s ∈ storeKeys s := by
  induction s with
  | nil => exact absurd rfl h
  | cons hd tl ih =>
    obtain ⟨k1, v1⟩ := hd
    cases tl with
    | nil => simp [maxSequence, storeKeys]
    | cons hd2 tl2 =>
      have hm : maxSequence ((k1, v1) :: hd2 :: tl2) = maxSequence (hd2 :: tl2) := rfl
      rw [hm, storeKeys_cons]
      exact List.mem_cons_of_mem _ (ih (by simp))

theorem le_maxSequence (s : Store) (hs : storeSorted s) :
    ∀ k ∈ storeKeys s, k ≤ maxSequence s := by
  induction s with
  | nil => intro k hk; simp [storeKeys] at hk
  | cons hd tl ih =>
    obtain ⟨k1, v1⟩ := hd
    rw [storeSorted, storeKeys_cons, List.pairwise_cons] at hs
    obtain ⟨hlt, htl⟩ := hs
    intro k hk
    rw [storeKeys_cons] at hk
    cases tl with
    | nil =>
      have : k = k1 := by simpa [storeKeys] using hk
      simp [this, maxSequence]
    | cons hd2 tl2 =>
      have hm : maxSequence ((k1, v1) :: hd2 :: tl2) = maxSequence (hd2 :: tl2) := rfl
      rw [hm]
      rcases List.mem_cons.mp hk with rfl | hk2
      · exact le_of_lt (hlt _ (maxSequence_mem (hd2 :: tl2) (by simp)))
      · exact ih htl k hk2

theorem mem_missingSequences (s : Store) (i : Int) :
    i ∈ missingSequences s ↔
      1 ≤ i ∧ i ≤ maxSequence s ∧ storeContains s i = false := by
  unfold missingSequences
  rw [List.mem_filter]
  simp only [List.mem_map, List.mem_range, Bool.not_eq_true']
  constructor
  · rintro ⟨⟨kk, hk, hkk⟩, hc⟩
    have hkk2 : (kk : Int) + 1 = i := hkk
    exact ⟨by omega, by omega, hc⟩
  · rintro ⟨h1, h2, hc⟩
    refine ⟨⟨(i - 1).toNat, by omega, ?_⟩, hc⟩
    show ((i - 1).toNat : Int) + 1 = i
    omega

theorem missingSequences_pairwise (s : Store) :
    (missingSequences s).Pairwise (· < ·) := by
  unfold missingSequences
  refine List.Pairwise.sublist (List.filter_sublist _) ?_
  refine List.Pairwise.map _ ?_ (List.pairwise_lt_range _)
  intro a b hab
  omega

theorem missingSequences_eq_nil_of_max_nonpos (s : Store) (h : maxSequence s ≤ 0) :
    missingSequences s = [] := by
  rw [List.eq_nil_iff_forall_not_mem]
  intro i hi
  rw [mem_missingSequences] at hi
  omega

/-! ### Stream reassembler -/

/-- The inner drain loop of the streaming phase, src/client.cpp lines
177-189: while the residual buffer holds at least 17 bytes, decode the
leading 17 bytes and drop them from the front. Returns the emitted packets
and the leftover buffer (shorter than 17 bytes). -/
def drainBuffer (buf : List Nat) : List Packet × List Nat :=
  if h : PACKET_SIZE ≤ buf.length then
    (parse_packet buf 0 :: (drainBuffer (buf.drop PACKET_SIZE)).1,
      (drainBuffer (buf.drop PACKET_SIZE)).2)
  else ([], buf)
termination_by buf.length
decreasing_by
  simp only [List.length_drop, PACKET_SIZE] at h ⊢
  omega

/-- The outer receive loop of the streaming phase, src/client.cpp lines
169-209: each arriving chunk is appended to the residual buffer, which is
then drained. The leftover fragment of the final chunk (shorter than 17
bytes) yields no record. -/
def feedChunks : List (List Nat) → List Nat → List Packet
  | [], _ => []
  | c :: cs, buf =>
    (drainBuffer (buf ++ c)).1 ++ feedChunks cs (drainBuffer (buf ++ c)).2

/-- Reference decoding of a byte sequence in fixed 17-byte windows; a
trailing fragment shorter than 17 bytes yields no record. -/
def decodeWindows (bytes : List Nat) : List Packet :=
  if h : PACKET_SIZE ≤ bytes.length then
    parse_packet bytes 0 :: decodeWindows (bytes.drop PACKET_SIZE)
  else []
termination_by bytes.length
decreasing_by
  simp only [List.length_drop, PACKET_SIZE] at h ⊢
  omega

theorem drainBuffer_of_ge (buf : List Nat) (h : PACKET_SIZE ≤ buf.length) :
    drainBuffer buf = (parse_packet buf 0 :: (drainBuffer (buf.drop PACKET_SIZE)).1,
      (drainBuffer (buf.drop PACKET_SIZE)).2) := by
  rw [drainBuffer]
  rw [dif_pos h]

theorem drainBuffer_of_lt (buf : List Nat) (h : ¬ PACKET_SIZE ≤ buf.length) :
    drainBuffer buf = ([], buf) := by
  rw [drainBuffer]
  rw [dif_neg h]

theorem decodeWindows_of_ge (bytes : List Nat) (h : PACKET_SIZE ≤ bytes.length) :
    decodeWindows bytes = parse_packet bytes 0 :: decodeWindows (bytes.drop PACKET_SIZE) := by
  rw [decodeWindows]
  rw [dif_pos h]

theorem decodeWindows_of_lt (bytes : List Nat) (h : ¬ PACKET_SIZE ≤ bytes.length) :
    decodeWindows bytes = [] := by
  rw [decodeWindows]
  rw [dif_neg h]

/-- The decoder reads only the first 17 bytes of its window. -/
theorem parse_packet_append (buf rest : List Nat) (h : PACKET_SIZE ≤ buf.length) :
    parse_packet (buf ++ rest) 0 = parse_packet buf 0 := by
  have h17 : 17 ≤ buf.length := by simpa [PACKET_SIZE] using h
  unfold parse_packet
  simp only [List.drop_zero]
  rw [List.take_append_of_le_length (by omega),
    List.getD_append _ _ _ _ (by omega), List.getD_append _ _ _ _ (by omega),
    List.getD_append _ _ _ _ (by omega), List.getD_append _ _ _ _ (by omega),
    List.getD_append _ _ _ _ (by omega), List.getD_append _ _ _ _ (by omega),
    List.getD_append _ _ _ _ (by omega), List.getD_append _ _ _ _ (by omega),
    List.getD_append _ _ _ _ (by omega), List.getD_append _ _ _ _ (by omega),
    List.getD_append _ _ _ _ (by omega), List.getD_append _ _ _ _ (by omega),
    List.getD_append _ _ _ _ (by omega)]

theorem decodeWindows_append (n : Nat) : ∀ buf rest : List Nat, buf.length ≤ n →
    decodeWindows (buf ++ rest) =
      (drainBuffer buf).1 ++ decodeWindows ((drainBuffer buf).2 ++ rest) := by
  induction n with
  | zero =>
    intro buf rest hb
    have hbuf : buf = [] := List.eq_nil_of_length_eq_zero (Nat.le_zero.mp hb)
    subst hbuf
    rw [drainBuffer_of_lt _ (by simp [PACKET_SIZE])]
    simp
  | succ n ih =>
    intro buf rest hb
    by_cases h : PACKET_SIZE ≤ buf.length
    · have hlen : PACKET_SIZE ≤ (buf ++ rest).length := by
        simp only [List.length_append]
        omega
      rw [decodeWindows_of_ge _ hlen, drainBuffer_of_ge _ h]
      rw [parse_packet_append _ _ h]
      have hdrop : (buf ++ rest).drop PACKET_SIZE = buf.drop PACKET_SIZE ++ rest :=
        List.drop_append_of_le_length h
      rw [hdrop]
      have hlt : (buf.drop PACKET_SIZE).length ≤ n := by
        simp only [List.length_drop, PACKET_SIZE] at h ⊢
        omega
      rw [ih (buf.drop PACKET_SIZE) rest hlt]
      simp
    · rw [drainBuffer_of_lt _ h]
      simp

/-- The drain loop's leftover is always shorter than one record. -/
theorem drainBuffer_snd_length (n : Nat) : ∀ buf : List Nat, buf.length ≤ n →
    ((drainBuffer buf).2).length < PACKET_SIZE := by
  induction n with
  | zero =>
    intro buf hb
    have hbuf : buf = [] := List.eq_nil_of_length_eq_zero (Nat.le_zero.mp hb)
    subst hbuf
    rw [drainBuffer_of_lt _ (by simp [PACKET_SIZE])]
    simp [PACKET_SIZE]
  | succ n ih =>
    intro buf hb
    by_cases h : PACKET_SIZE ≤ buf.length
    · rw [drainBuffer_of_ge _ h]
      refine ih (buf.drop PACKET_SIZE) ?_
      simp only [List.length_drop, PACKET_SIZE] at h ⊢
      omega
    · rw [drainBuffer_of_lt _ h]
      show buf.length < PACKET_SIZE
      omega

theorem feedChunks_eq_decodeWindows (cs : List (List Nat)) :
    ∀ buf : List Nat, buf.length < PACKET_SIZE →
      feedChunks cs buf = decodeWindows (buf ++ cs.flatten) := by
  induction cs with
  | nil =>
    intro buf hb
    have h1 : ([] : List (List Nat)).flatten = [] := rfl
    rw [h1, List.append_nil, decodeWindows_of_lt _ (by omega)]
    rfl
  | cons c cs ih =>
    intro buf hb
    rw [show feedChunks (c :: cs) buf =
      (drainBuffer (buf ++ c)).1 ++ feedChunks cs (drainBuffer (buf ++ c)).2 from rfl]
    have hjoin : (c :: cs).flatten = c ++ cs.flatten := rfl
    rw [hjoin, show buf ++ (c ++ cs.flatten) = (buf ++ c) ++ cs.flatten from
      (List.append_assoc buf c cs.flatten).symm]
    rw [decodeWindows_append (buf ++ c).length (buf ++ c) cs.flatten le_rfl]
    have hsnd : ((drainBuffer (buf ++ c)).2).length < PACKET_SIZE :=
      drainBuffer_snd_length (buf ++ c).length (buf ++ c) le_rfl
    rw [ih _ hsnd]

/-! ### Frame decoder arithmetic -/

/-- For byte values, the decoder's shift-and-or combination equals the
big-endian positional sum. -/
theorem be32_eq (b0 b1 b2 b3 : Nat) (h0 : b0 < 256) (h1 : b1 < 256)
    (h2 : b2 < 256) (h3 : b3 < 256) :
    (b0 <<< 24) ||| (b1 <<< 16) ||| (b2 <<< 8) ||| b3
      = b0 * 2 ^ 24 + b1 * 2 ^ 16 + b2 * 2 ^ 8 + b3 := by
  rw [Nat.shiftLeft_eq, Nat.shiftLeft_eq, Nat.shiftLeft_eq]
  have e1 : b0 * 2 ^ 24 ||| b1 * 2 ^ 16 = b0 * 2 ^ 24 + b1 * 2 ^ 16 := by
    have hf : b0 * 2 ^ 24 = 2 ^ 24 * b0 := by ring
    have hc : b1 * 2 ^ 16 < 2 ^ 24 := by omega
    rw [hf, ← Nat.mul_add_lt_is_or hc]
  rw [e1]
  have e2 : b0 * 2 ^ 24 + b1 * 2 ^ 16 ||| b2 * 2 ^ 8
      = b0 * 2 ^ 24 + b1 * 2 ^ 16 + b2 * 2 ^ 8 := by
    have hf : b0 * 2 ^ 24 + b1 * 2 ^ 16 = 2 ^ 16 * (b0 * 2 ^ 8 + b1) := by ring
    have hc : b2 * 2 ^ 8 < 2 ^ 16 := by omega
    rw [hf, ← Nat.mul_add_lt_is_or hc]
  rw [e2]
  have e3 : b0 * 2 ^ 24 + b1 * 2 ^ 16 + b2 * 2 ^ 8 ||| b3
      = b0 * 2 ^ 24 + b1 * 2 ^ 16 + b2 * 2 ^ 8 + b3 := by
    have hf : b0 * 2 ^ 24 + b1 * 2 ^ 16 + b2 * 2 ^ 8
        = 2 ^ 8 * (b0 * 2 ^ 16 + b1 * 2 ^ 8 + b2) := by ring
    have hc : b3 < 2 ^ 8 := by omega
    rw [hf, ← Nat.mul_add_lt_is_or hc]
  rw [e3]

theorem toInt32_of_lt (n : Nat) (h : n < 2 ^ 32) :
    toInt32 n = if n < 2 ^ 31 then (n : Int) else (n : Int) - 2 ^ 32 := by
  unfold toInt32
  rw [Nat.mod_eq_of_lt h]

/-! ### Recovery session -/

/-- One result of a `recv` call observed by the recovery read loop,
src/client.cpp lines 314-343: a positive read delivering bytes, a peer
close (`recv` returns 0), the idle timeout (EAGAIN/EWOULDBLOCK), or another
transport error. -/
inductive RecvEvent where
  | bytes (bs : List Nat)
  | closed
  | timeout
  | error
deriving DecidableEq

/-- The recovery read loop, src/client.cpp lines 314-343: accumulate bytes
until exactly 17 are collected (each read asks only for the bytes still
missing, so a delivered chunk is capped at the remainder). A close, timeout
or error before 17 bytes abandons the frame (`total_bytes_received = 0`);
running out of events models a read that would block past the timeout. -/
def collectFrame (acc : List Nat) : List RecvEvent → Option (List Nat)
  | [] => if PACKET_SIZE ≤ acc.length then some acc else none
  | ev :: rest =>
    if PACKET_SIZE ≤ acc.length then some acc
    else
      match ev with
      | RecvEvent.bytes bs => collectFrame (acc ++ bs.take (PACKET_SIZE - acc.length)) rest
      | RecvEvent.closed => none
      | RecvEvent.timeout => none
      | RecvEvent.error => none

/-- One recovery session, src/client.cpp lines 239-380: on connect or send
failure the sequence is skipped; when all 17 bytes arrive, the decoded
record is inserted under its own decoded sequence number (`reqSeq`, the
sequence that was asked for, only feeds the warning log at lines 353-356
and never influences the store update); otherwise the partial bytes are
discarded and the store is untouched. -/
def runRecoverySession (store : Store) (reqSeq : Int) (connectOk sendOk : Bool)
    (evs : List RecvEvent) : Store :=
  if connectOk = false then store
  else if sendOk = false then store
  else
    match collectFrame [] evs with
    | some frame => storeInsert store (parse_packet frame 0).sequence (parse_packet frame 0)
    | none => store

/-- The recovery loop over the missing sequences, src/client.cpp lines
239-380: sessions run strictly one after another, each against the store
left by the previous one. -/
def runRecoveryLoop (store : Store) : List (Int × Bool × Bool × List RecvEvent) → Store
  | [] => store
  | s :: rest => runRecoveryLoop (runRecoverySession store s.1 s.2.1 s.2.2.1 s.2.2.2) rest

/-! ### Sample data used by the witnesses -/

/-- A concrete packet with the given sequence number. -/
def mkPacket (seq : Int) : Packet :=
  { symbol := [77, 83, 70, 84], buysell_indicator := 66,
    quantity := 10, price := 50, sequence := seq }

/-- Streaming-phase packets with sequences 1, 2, 4, 5: sequence 3 is the gap. -/
def samplePackets : List Packet := [mkPacket 1, mkPacket 2, mkPacket 4, mkPacket 5]

/-- A concrete 17-byte wire frame: symbol "ABCD", side 'B', quantity 100,
price 300, sequence 5. -/
def sampleFrame : List Nat :=
  [65, 66, 67, 68, 66, 0, 0, 0, 100, 0, 0, 1, 44, 0, 0, 0, 5]

/-- A concrete 17-byte wire frame whose sequence field has the sign bit set:
its decoded sequence is negative. -/
def negFrame : List Nat :=
  [65, 66, 67, 68, 83, 0, 0, 0, 1, 0, 0, 0, 2, 128, 0, 0, 1]

/-! ### The claims -/

/-- C1: for every sequence of byte chunks fed to the streaming receive loop,
in every split (mid-record splits and one-byte-at-a-time delivery included),
the records decoded — and hence the store built from them — are identical to
decoding the concatenation of all chunks in fixed 17-byte windows; a
trailing fragment shorter than 17 bytes yields no record. -/
theorem stream_reassembly_split_invariant (chunks : List (List Nat)) :
    feedChunks chunks [] = decodeWindows chunks.flatten ∧
    streamStore (feedChunks chunks []) = streamStore (decodeWindows chunks.flatten) := by
  have h : feedChunks chunks [] = decodeWindows ([] ++ chunks.flatten) :=
    feedChunks_eq_decodeWindows chunks [] (by simp [PACKET_SIZE])
  rw [List.nil_append] at h
  exact ⟨h, by rw [h]⟩

/-- C2: with `max` the greatest key of the post-streaming store (0 when it is
empty), the missing-sequence list is exactly the integers in `[1, max]` that
are not keys, in ascending order; zero and negative sequences are never
listed; and when `max = 0` the list is empty, so the recovery loop runs no
session. -/
theorem gap_analyzer_exact (ps : List Packet) (i : Int) :
    (i ∈ missingSequences (streamStore ps) ↔
      1 ≤ i ∧ i ≤ maxSequence (streamStore ps) ∧
        storeContains (streamStore ps) i = false) ∧
    (missingSequences (streamStore ps)).Pairwise (· < ·) ∧
    (maxSequence (streamStore ps) = 0 → missingSequences (streamStore ps) = []) ∧
    (i ∈ storeKeys (streamStore ps) → i ≤ maxSequence (streamStore ps)) := by
  refine ⟨mem_missingSequences _ _, missingSequences_pairwise _, ?_, ?_⟩
  · intro h
    exact missingSequences_eq_nil_of_max_nonpos _ (le_of_eq h)
  · intro hk
    exact le_maxSequence _ (streamStore_sorted ps) i hk

/-- C3: on a 17-byte window of byte values, the frame decoder returns the
first 4 bytes verbatim as the symbol, byte 4 unvalidated as the side, and
the 32-bit signed big-endian integers at offsets 5, 9 and 13 as quantity,
price and sequence, combined by byte shifts (so independent of platform
endianness); the decoder is a total function, rejecting no window. -/
theorem frame_decoder_exact (w : List Nat) (hw : w.length = 17)
    (hb : ∀ b ∈ w, b < 256) :
    (parse_packet w 0).symbol = w.take 4 ∧
    (parse_packet w 0).buysell_indicator = w.getD 4 0 ∧
    (parse_packet w 0).quantity
      = int32BE (w.getD 5 0) (w.getD 6 0) (w.getD 7 0) (w.getD 8 0) ∧
    (parse_packet w 0).price
      = int32BE (w.getD 9 0) (w.getD 10 0) (w.getD 11 0) (w.getD 12 0) ∧
    (parse_packet w 0).sequence
      = int32BE (w.getD 13 0) (w.getD 14 0) (w.getD 15 0) (w.getD 16 0) := by
  have hby : ∀ i : Nat, w.getD i 0 < 256 := by
    intro i
    by_cases hi : i < w.length
    · rw [List.getD_eq_getElem w 0 hi]
      exact hb _ (List.getElem_mem hi)
    · rw [List.getD_eq_default w 0 (by omega)]
      norm_num
  refine ⟨rfl, rfl, ?_, ?_, ?_⟩
  · show toInt32 ((w.getD 5 0 <<< 24) ||| (w.getD 6 0 <<< 16) |||
      (w.getD 7 0 <<< 8) ||| w.getD 8 0) = _
    rw [be32_eq _ _ _ _ (hby 5) (hby 6) (hby 7) (hby 8)]
    have q0 := hby 5
    have q1 := hby 6
    have q2 := hby 7
    have q3 := hby 8
    rw [toInt32_of_lt _ (by omega)]
    rfl
  · show toInt32 ((w.getD 9 0 <<< 24) ||| (w.getD 10 0 <<< 16) |||
      (w.getD 11 0 <<< 8) ||| w.getD 12 0) = _
    rw [be32_eq _ _ _ _ (hby 9) (hby 10) (hby 11) (hby 12)]
    have q0 := hby 9
    have q1 := hby 10
    have q2 := hby 11
    have q3 := hby 12
    rw [toInt32_of_lt _ (by omega)]
    rfl
  · show toInt32 ((w.getD 13 0 <<< 24) ||| (w.getD 14 0 <<< 16) |||
      (w.getD 15 0 <<< 8) ||| w.getD 16 0) = _
    rw [be32_eq _ _ _ _ (hby 13) (hby 14) (hby 15) (hby 16)]
    have q0 := hby 13
    have q1 := hby 14
    have q2 := hby 15
    have q3 := hby 16
    rw [toInt32_of_lt _ (by omega)]
    rfl

/-- Witness for C3 at a concrete frame whose sequence field has the sign bit
set: the hypotheses hold by evaluation and the decoded fields match the
big-endian signed reading. -/
theorem frame_decoder_exact_witness :
    (parse_packet negFrame 0).symbol = negFrame.take 4 ∧
    (parse_packet negFrame 0).buysell_indicator = negFrame.getD 4 0 ∧
    (parse_packet negFrame 0).quantity
      = int32BE (negFrame.getD 5 0) (negFrame.getD 6 0) (negFrame.getD 7 0) (negFrame.getD 8 0) ∧
    (parse_packet negFrame 0).price
      = int32BE (negFrame.getD 9 0) (negFrame.getD 10 0) (negFrame.getD 11 0) (negFrame.getD 12 0) ∧
    (parse_packet negFrame 0).sequence
      = int32BE (negFrame.getD 13 0) (negFrame.getD 14 0) (negFrame.getD 15 0) (negFrame.getD 16 0) :=
  frame_decoder_exact negFrame (by decide) (by decide)

/-- C4: record store insertion is last-write-wins and idempotent: inserting
two records under the same key (as the streaming phase and the recovery
phase both do) leaves exactly the most recently inserted payload under that
key, and inserting the same record twice equals inserting it once. -/
theorem store_insert_last_write_wins (s : Store) (k : Int) (v1 v2 : Packet) :
    storeInsert (storeInsert s k v1) k v2 = storeInsert s k v2 ∧
    storeLookup (storeInsert (storeInsert s k v1) k v2) k = some v2 ∧
    storeInsert (storeInsert s k v1) k v1 = storeInsert s k v1 := by
  refine ⟨storeInsert_insert_same s k v1 v2, ?_, storeInsert_insert_same s k v1 v1⟩
  rw [storeInsert_insert_same s k v1 v2]
  exact storeLookup_insert_self s k v2

/-- C5: for every missing sequence `s`, out-of-range values included, the
resend request is exactly the 2 bytes `[0x02, s mod 256]`: the sequence is
truncated to its low 8 bits and sent anyway (`resend_payload` branches on
nothing; the out-of-range case at src/client.cpp lines 287-289 only prints
a warning). -/
theorem resend_request_encoding (s : Int) :
    resend_payload s = [2, (s % 256).toNat] ∧
    (resend_payload s).length = 2 ∧
    (resend_payload s).getD 0 0 = 2 ∧
    ((resend_payload s).getD 1 0 : Int) = s % 256 ∧
    (resend_payload s).getD 1 0 < 256 := by
  refine ⟨rfl, rfl, rfl, ?_, ?_⟩
  · show (((s % 256).toNat : Nat) : Int) = s % 256
    omega
  · show (s % 256).toNat < 256
    omega

/-- C6: a recovery session that collects all 17 bytes inserts the decoded
record under its decoded sequence number, even when that differs from the
requested sequence; the requested key itself is left untouched in that
case (the mismatch only produces a warning). -/
theorem recovery_complete_uses_decoded_sequence (store : Store) (reqSeq : Int)
    (evs : List RecvEvent) (frame : List Nat)
    (hc : collectFrame [] evs = some frame) :
    runRecoverySession store reqSeq true true evs
      = storeInsert store (parse_packet frame 0).sequence (parse_packet frame 0) ∧
    ((parse_packet frame 0).sequence ≠ reqSeq →
      storeLookup (runRecoverySession store reqSeq true true evs) reqSeq
        = storeLookup store reqSeq) := by
  have hrun : runRecoverySession store reqSeq true true evs
      = storeInsert store (parse_packet frame 0).sequence (parse_packet frame 0) := by
    unfold runRecoverySession
    rw [hc]
    simp
  refine ⟨hrun, fun hne => ?_⟩
  rw [hrun]
  exact storeLookup_insert_ne store _ reqSeq _ (Ne.symm hne)

/-- Witness for C6: requesting sequence 3 but receiving a frame that decodes
to sequence 5 leaves key 3 absent — the record is never filed under the
requested sequence. -/
theorem recovery_complete_witness :
    storeLookup (runRecoverySession [] 3 true true [RecvEvent.bytes sampleFrame]) 3
      = none := by
  have h := recovery_complete_uses_decoded_sequence [] 3 [RecvEvent.bytes sampleFrame]
    sampleFrame (by decide)
  exact h.2 (by decide)

/-- C7: an abandoned recovery session — connect/send failure, or timeout,
close or error before 17 bytes accumulate — leaves the record store entirely
unchanged (partial bytes are discarded), and the recovery loop carries on
with the remaining missing sequences as if the session had not run. -/
theorem recovery_abandoned_store_unchanged (store : Store) (reqSeq : Int)
    (connectOk sendOk : Bool) (evs : List RecvEvent)
    (rest : List (Int × Bool × Bool × List RecvEvent))
    (h : connectOk = false ∨ sendOk = false ∨ collectFrame [] evs = none) :
    runRecoverySession store reqSeq connectOk sendOk evs = store ∧
    runRecoveryLoop store ((reqSeq, connectOk, sendOk, evs) :: rest)
      = runRecoveryLoop store rest := by
  have hrun : runRecoverySession store reqSeq connectOk sendOk evs = store := by
    unfold runRecoverySession
    rcases h with h | h | h
    · rw [if_pos h]
    · by_cases hc : connectOk = false
      · rw [if_pos hc]
      · rw [if_neg hc, if_pos h]
    · by_cases hc : connectOk = false
      · rw [if_pos hc]
      · by_cases hs2 : sendOk = false
        · rw [if_neg hc, if_pos hs2]
        · rw [if_neg hc, if_neg hs2, h]
  refine ⟨hrun, ?_⟩
  show runRecoveryLoop (runRecoverySession store reqSeq connectOk sendOk evs) rest
      = runRecoveryLoop store rest
  rw [hrun]

/-- Witness for C7: a session that gets only 3 of 17 bytes before the idle
timeout leaves the one-record store exactly as it was. -/
theorem recovery_abandoned_witness :
    runRecoverySession [(1, mkPacket 1)] 3 true true
        [RecvEvent.bytes [1, 2, 3], RecvEvent.timeout] = [(1, mkPacket 1)] := by
  have h := recovery_abandoned_store_unchanged [(1, mkPacket 1)] 3 true true
    [RecvEvent.bytes [1, 2, 3], RecvEvent.timeout] [] (Or.inr (Or.inr (by decide)))
  exact h.1

/-- C8 (the claim fails on the code): src/client.cpp line 407 passes the
string literal " \x5c0" to `find_last_not_of`, whose `const char*` overload
reads the character set up to the embedded NUL — the effective set is just
`' '`. Trailing NUL bytes are therefore NOT trimmed: the wire symbol
"AB\x5c0\x5c0" renders with its two NUL bytes retained, not as "AB". The
all-spaces half of the claim does hold (an all-space field clears to the
empty string), contradicting the code's own comments at lines 404-407 which
say spaces and nulls are both trimmed. -/
theorem trim_symbol_keeps_nul_padding :
    trimSymbol [65, 66, 0, 0] = [65, 66, 0, 0] ∧
    trimSymbol [65, 66, 0, 0] ≠ [65, 66] ∧
    trimSymbol [32, 32, 32, 32] = [] := by decide

/-- C9: a completed recovery session modifies at most the one key equal to
the received record's decoded sequence — that key now holds the recovered
record, silently overwriting any record streamed there earlier — and every
other key is unchanged. -/
theorem recovery_session_frame_effect (store : Store) (reqSeq k : Int)
    (evs : List RecvEvent) (frame : List Nat)
    (hc : collectFrame [] evs = some frame) :
    storeLookup (runRecoverySession store reqSeq true true evs)
        (parse_packet frame 0).sequence = some (parse_packet frame 0) ∧
    (k ≠ (parse_packet frame 0).sequence →
      storeLookup (runRecoverySession store reqSeq true true evs) k
        = storeLookup store k) := by
  have hrun : runRecoverySession store reqSeq true true evs
      = storeInsert store (parse_packet frame 0).sequence (parse_packet frame 0) := by
    unfold runRecoverySession
    rw [hc]
    simp
  rw [hrun]
  exact ⟨storeLookup_insert_self _ _ _, fun hk => storeLookup_insert_ne _ _ _ _ hk⟩

/-- Witness for C9: recovering into a store whose key 5 was filled during
streaming overwrites key 5 with the recovered record and leaves key 1
untouched. -/
theorem recovery_frame_effect_witness :
    storeLookup (runRecoverySession [(1, mkPacket 1), (5, mkPacket 5)] 5 true true
        [RecvEvent.bytes sampleFrame]) (parse_packet sampleFrame 0).sequence
      = some (parse_packet sampleFrame 0) ∧
    storeLookup (runRecoverySession [(1, mkPacket 1), (5, mkPacket 5)] 5 true true
        [RecvEvent.bytes sampleFrame]) 1
      = storeLookup [(1, mkPacket 1), (5, mkPacket 5)] 1 := by
  have h := recovery_session_frame_effect [(1, mkPacket 1), (5, mkPacket 5)] 5 1
    [RecvEvent.bytes sampleFrame] sampleFrame (by decide)
  exact ⟨h.1, h.2 (by decide)⟩

/-- C10: a record whose decoded sequence is zero or negative is still
inserted into the store and still appears in the (ascending-by-sequence)
output iteration, but its sequence is never in the missing list; and a
non-empty store whose keys are all negative has an empty missing list (the
gap scan over `[1, max]` runs zero iterations). -/
theorem nonpositive_sequence_behavior (s1 s2 : Store) (p : Packet)
    (hp : p.sequence ≤ 0) (hneg : ∀ k ∈ storeKeys s2, k < 0) (hne : s2 ≠ []) :
    storeLookup (storeInsert s1 p.sequence p) p.sequence = some p ∧
    p ∈ outputRecords (storeInsert s1 p.sequence p) ∧
    (storeSorted s1 → storeSorted (storeInsert s1 p.sequence p)) ∧
    p.sequence ∉ missingSequences s1 ∧
    missingSequences s2 = [] := by
  refine ⟨storeLookup_insert_self _ _ _, mem_outputRecords_insert _ _ _,
    storeSorted_insert _ _ _, ?_, ?_⟩
  · intro hmem
    rw [mem_missingSequences] at hmem
    omega
  · refine missingSequences_eq_nil_of_max_nonpos s2 ?_
    have := hneg _ (maxSequence_mem s2 hne)
    omega

/-- Witness for C10 at a record with sequence -2 and a store whose only key
is -5. -/
theorem nonpositive_sequence_witness :
    storeLookup (storeInsert [((2 : Int), mkPacket 2)] (mkPacket (-2)).sequence
        (mkPacket (-2))) (mkPacket (-2)).sequence = some (mkPacket (-2)) ∧
    mkPacket (-2) ∈ outputRecords (storeInsert [((2 : Int), mkPacket 2)]
        (mkPacket (-2)).sequence (mkPacket (-2))) ∧
    (storeSorted [((2 : Int), mkPacket 2)] →
      storeSorted (storeInsert [((2 : Int), mkPacket 2)] (mkPacket (-2)).sequence
        (mkPacket (-2)))) ∧
    (mkPacket (-2)).sequence ∉ missingSequences [((2 : Int), mkPacket 2)] ∧
    missingSequences [((-5 : Int), mkPacket (-5))] = [] :=
  nonpositive_sequence_behavior [((2 : Int), mkPacket 2)]
    [((-5 : Int), mkPacket (-5))] (mkPacket (-2)) (by decide) (by decide) (by decide)

end AbxClient
